import Mathlib

/-!
Shallow embedding of the analysis pipeline of `Fig6/analysis.py`
(frequency/amplitude discrimination of spiking neuron models), together
with proofs of the specified properties of its functions.

Python floating-point values that can be non-finite (NaN, ±inf) are
modelled by the type `FloatV`; finite arithmetic is carried out over `ℚ`
where the source only adds, multiplies and compares, and over `ℝ` where
the source evaluates transcendental functions (`gaussian`).
-/

namespace Fig6

/-- A Python float as it appears in the measure collections handed to
`discriminate`: either a finite value or one of the non-finite values
NaN, +inf, -inf. -/
inductive FloatV : Type
  | fin (q : ℚ)
  | nan
  | inf
  | ninf
  deriving DecidableEq, Repr

/-- `np.isfinite` on a `FloatV`. -/
def FloatV.isFinite : FloatV → Bool
  | .fin _ => true
  | _ => false

/-- `d[~np.isfinite(d)] = 0` (analysis.py lines 79/83): every non-finite
entry is replaced with 0, in place. -/
def replaceNonFinite (l : List FloatV) : List FloatV :=
  l.map fun v => if v.isFinite then v else .fin 0

/-- `d = d[np.isfinite(d)]` (analysis.py lines 80/84): keep only the
finite entries. -/
def filterFinite (l : List FloatV) : List FloatV :=
  l.filter (·.isFinite)

/-- `.tolist()` after the sanitization: all survivors are finite, read off
their rational value (non-finite entries, which cannot occur there, map
to 0). -/
def toRatList (l : List FloatV) : List ℚ :=
  l.map fun v => match v with
    | .fin q => q
    | _ => 0

/-- The full two-stage sanitization applied to each collection in
`discriminate` (analysis.py lines 78-84). -/
def sanitize (l : List FloatV) : List ℚ :=
  toRatList (filterFinite (replaceNonFinite l))

/-- Modelled from the spec: `sklearn.metrics.roc_curve` followed by
`sklearn.metrics.auc` on scores `neg ++ pos` with labels 0 for `neg` and
1 for `pos` (positive class = 1).  The trapezoidal area under the ROC
curve equals the Mann-Whitney statistic: the average over all
(positive, negative) pairs of 1 / (1/2) / 0 according to whether the
positive score is greater / tied / smaller.  Per the spec the
computation fails (raises) when one of the two classes is absent; this
is modelled by returning `none`. -/
def rocAuc (neg pos : List ℚ) : Option ℚ :=
  if neg.isEmpty || pos.isEmpty then none
  else
    some (((pos.map fun x =>
      (neg.map fun y => if y < x then (1 : ℚ) else if x < y then 0 else 1/2).sum).sum)
        / (neg.length * pos.length))

/-- `discriminate(d1, d2, a, b)` (analysis.py lines 63-96): swap the two
collections when `a > b`, sanitize both, score the concatenation with
labels 0 (first collection) and 1 (second), and return the ROC-AUC,
falling back to 0 when the AUC computation fails. -/
def discriminate (d1 d2 : List FloatV) (a b : ℚ) : ℚ :=
  let e1 := if a > b then d2 else d1
  let e2 := if a > b then d1 else d2
  match rocAuc (sanitize e1) (sanitize e2) with
  | some auc => auc
  | none => 0

/-- `np.arange(x0, x1, step)`: the `⌈(x1 - x0) / step⌉` values
`x0 + k * step`. -/
def arange {α : Type} [LinearOrderedField α] [FloorSemiring α] (x0 x1 step : α) : List α :=
  (List.range ⌈(x1 - x0) / step⌉₊).map fun k : ℕ => x0 + (k : α) * step

/-- `create_param_range(x0, x1, res) = np.arange(x0, x1 + res, res)`
(analysis.py lines 99-108). -/
def create_param_range (x0 x1 res : ℚ) : List ℚ :=
  arange x0 (x1 + res) res

/-- `np.diff(a)`: consecutive differences `a[k+1] - a[k]`. -/
def diffs {α : Type} [Sub α] (l : List α) : List α :=
  List.zipWith (fun x y => x - y) l.tail l

/-- `gaussian(x, mu, sig)` (analysis.py lines 11-20). -/
noncomputable def gaussian (x mu sig : ℝ) : ℝ :=
  1 / (Real.sqrt (2 * Real.pi) * sig) * Real.exp (-(((x - mu) / sig) ^ 2) / 2)

/-- `np.argmax(l)`: index of the first occurrence of the maximum value
(the accumulator is replaced only on a strictly greater value). -/
noncomputable def argmaxIdx (l : List ℝ) : ℕ :=
  match l with
  | [] => 0
  | x :: xs =>
    (xs.enum.foldl (fun acc p => if acc.2 < p.2 then (p.1 + 1, p.2) else acc) (0, x)).1

/-- Modelled from the spec: the local-maximum condition underlying
`scipy.signal.find_peaks` — "a point flanked by lower values on both
sides" (spec section 4.2 step 3).  Boundary samples are never peaks. -/
def isLocalMax (l : List ℝ) (i : ℕ) : Prop :=
  0 < i ∧ i + 1 < l.length ∧
    l.getD (i - 1) 0 < l.getD i 0 ∧ l.getD (i + 1) 0 < l.getD i 0

noncomputable instance (l : List ℝ) (i : ℕ) : Decidable (isLocalMax l i) := by
  unfold isLocalMax; infer_instance

/-- Indices of all interior strict local maxima of `l`, in increasing
order. -/
noncomputable def localMaxIndices (l : List ℝ) : List ℕ :=
  (List.range l.length).filter fun i => decide (isLocalMax l i)

/-- Modelled from the spec: the prominence of a peak — how much it
"stands above its surrounding baseline" (glossary): the peak height
minus the higher of the two base levels, each base being the minimum of
the samples between the peak and the nearest higher sample (or the
array end) on that side. -/
noncomputable def prominenceAt (l : List ℝ) (i : ℕ) : ℝ :=
  let pk := l.getD i 0
  let leftWin := ((l.take i).reverse).takeWhile fun v => decide (v ≤ pk)
  let rightWin := (l.drop (i + 1)).takeWhile fun v => decide (v ≤ pk)
  pk - max (leftWin.foldl min pk) (rightWin.foldl min pk)

/-- Modelled from the spec: `scipy.signal.find_peaks(l, prominence=prom)`
— the interior strict local maxima whose prominence reaches the given
threshold. -/
noncomputable def find_peaks (l : List ℝ) (prom : ℝ) : List ℕ :=
  (localMaxIndices l).filter fun i => decide (prom ≤ prominenceAt l i)

/-- The outcome of `infer_frequency`: the NaN sentinel produced by the
`except` branch, the IEEE value `1000 / 0.0 = +inf`, or a finite
frequency. -/
inductive FreqResult : Type
  | nan
  | posInf
  | val (f : ℝ)

/-- `isi_bin = np.arange(0, 350, res)` (analysis.py line 35). -/
noncomputable def isi_bins (res : ℝ) : List ℝ :=
  arange 0 350 res

/-- The normalized smoothed ISI density (analysis.py lines 39-40):
at each bin, the sum over all ISIs of a gaussian of spread `t1`
centered at that ISI, then divided by the total so the density sums
to 1. -/
noncomputable def isi_density (isi : List ℝ) (t1 res : ℝ) : List ℝ :=
  let h0 := (isi_bins res).map fun x => (isi.map fun i => gaussian x i t1).sum
  h0.map fun v => v / h0.sum

/-- `pk_location_diffs` (analysis.py lines 42-43): differences between
the bin positions of consecutive detected peaks of the ISI density. -/
noncomputable def isi_peak_diffs (isi : List ℝ) (t1 res prom : ℝ) : List ℝ :=
  diffs ((find_peaks (isi_density isi t1 res) prom).map fun p => (isi_bins res).getD p 0)

/-- `peak_loc_bins = np.arange(0, 15, time_step)` (analysis.py line 45). -/
noncomputable def freq_bins (time_step : ℝ) : List ℝ :=
  arange 0 15 time_step

/-- The smoothed density over candidate periodicities (analysis.py
line 46). -/
noncomputable def freq_density (pkd : List ℝ) (t2 time_step : ℝ) : List ℝ :=
  (freq_bins time_step).map fun x => (pkd.map fun pk => gaussian x pk t2).sum

/-- `infer_frequency` (analysis.py lines 23-50).  The bare `except`
catching every exception is modelled by returning `FreqResult.nan` on
each pipeline step that raises: `np.vstack` of an empty list when there
are no ISIs, `np.vstack` of an empty list when there are fewer than two
detected peaks, and `np.argmax` of an empty array when the frequency
bin grid is empty.  The final `1000 / peak_loc_bins[argmax]` is IEEE
float division: `+inf` when the bin value is 0, finite otherwise. -/
noncomputable def infer_frequency (spike_times : List ℝ)
    (t1 t2 res prom time_step : ℝ) : FreqResult :=
  match diffs spike_times with
  | [] => .nan
  | i0 :: irest =>
    match isi_peak_diffs (i0 :: irest) t1 res prom with
    | [] => .nan
    | p0 :: prest =>
      match freq_bins time_step with
      | [] => .nan
      | b0 :: brest =>
        let hist := freq_density (p0 :: prest) t2 time_step
        let x := (b0 :: brest).getD (argmaxIdx hist) 0
        if x = 0 then .posInf else .val (1000 / x)

/-- The on-disk path used by `save`/`load` (analysis.py lines 197/209):
`save_data/{sim_name}_{sim_type}.pkl`. -/
def savePath (sim_name sim_type : String) : String :=
  "save_data/" ++ sim_name ++ "_" ++ sim_type ++ ".pkl"

/-- Modelled from the spec: the filesystem as a map from paths to the
pickled payload; `pickle.dump`/`pickle.load` round-trip to the identical
object (spec section 4.7: "any serialization format is acceptable ... as
long as round-trip identity holds"), so a file directly stores the
`(spike_times, infered_values)` pair.  `save` (analysis.py lines
188-198) writes the pair at its path. -/
def save {σ ι : Type} (fs : String → Option (σ × ι)) (sim_name sim_type : String)
    (spike_times : σ) (infered_values : ι) : String → Option (σ × ι) :=
  Function.update fs (savePath sim_name sim_type) (some (spike_times, infered_values))

/-- `load` (analysis.py lines 201-210) reads back the pair stored at the
same path. -/
def load {σ ι : Type} (fs : String → Option (σ × ι)) (sim_name sim_type : String) :
    Option (σ × ι) :=
  fs (savePath sim_name sim_type)

/-- Modelled from the spec: `np.random.uniform(lo, hi, size)` — `size`
independent draws from `[lo, hi)`, embedded by reading `size`
consecutive raw unit-interval values from an injected stream starting
at position `pos` and scaling each to `[lo, hi)`. -/
def npRandomUniform (lo hi : ℚ) (size : ℕ) (stream : ℕ → ℚ) (pos : ℕ) : List ℚ :=
  (List.range size).map fun k => lo + stream (pos + k) * (hi - lo)

/-- The nuisance amplitudes drawn by `evaluate_frequency_discrimination`
(analysis.py line 175): iteration `i` of the loop over
`create_param_range f0 f1 res` executes
`np.random.uniform(a0, a1, model.neurons.N)`, consuming `N` fresh
stream values. -/
def freqSweepNuisanceAmplitudes (f0 f1 res a0 a1 : ℚ) (N : ℕ) (stream : ℕ → ℚ) :
    List (List ℚ) :=
  (List.range (create_param_range f0 f1 res).length).map fun i =>
    npRandomUniform a0 a1 N stream (i * N)

/-- The nuisance frequencies drawn by `evaluate_amplitude_discrimination`
(analysis.py line 135): iteration `i` of the loop over
`create_param_range a0 a1 res` executes
`np.random.uniform(f0, f1, model.neurons.N)`. -/
def ampSweepNuisanceFrequencies (a0 a1 res f0 f1 : ℚ) (N : ℕ) (stream : ℕ → ℚ) :
    List (List ℚ) :=
  (List.range (create_param_range a0 a1 res).length).map fun i =>
    npRandomUniform f0 f1 N stream (i * N)

/-- `np.meshgrid(x, y)` (analysis.py line 264): `xx[i][j] = x[j]` and
`yy[i][j] = y[i]`, both of shape `(y.length, x.length)`. -/
def meshgrid (x y : List ℚ) : List (List ℚ) × List (List ℚ) :=
  (y.map fun _ => x, y.map fun yi => x.map fun _ => yi)

/-- `np.ravel`: row-major flattening. -/
def ravel (m : List (List ℚ)) : List ℚ :=
  m.flatten

/-- `z.reshape(nrows, ncols)`: cut the flat row-major list back into
rows. -/
def reshape (l : List ℚ) (nrows ncols : ℕ) : List (List ℚ) :=
  (List.range nrows).map fun r => (l.drop (r * ncols)).take ncols

/-- `discrimination_combinations` (analysis.py lines 254-268): meshgrid
of the sweep levels against themselves, `discriminate` on every ordered
pair of the ravelled grids, reshaped back to the grid shape.  The
insertion-ordered Python dict `infered_values` is embedded as an
association list. -/
def discrimination_combinations (iv : List (ℚ × List FloatV)) :
    List (List ℚ) × List (List ℚ) × List (List ℚ) :=
  let levels := iv.map Prod.fst
  let m := meshgrid levels levels
  let z := ((ravel m.1).zip (ravel m.2)).map fun p =>
    discriminate ((iv.lookup p.1).getD []) ((iv.lookup p.2).getD []) p.1 p.2
  (m.1, m.2, reshape z levels.length levels.length)

/-! ### Helper lemmas -/

lemma getD_range_map {α : Type} (f : ℕ → α) (n i : ℕ) (d : α) (h : i < n) :
    ((List.range n).map f).getD i d = f i := by
  rw [List.getD_eq_getElem _ _ (by simpa using h)]
  simp

lemma discriminate_swap (d1 d2 : List FloatV) (a b : ℚ) (h : a ≠ b) :
    discriminate d1 d2 a b = discriminate d2 d1 b a := by
  rcases h.lt_or_lt with hlt | hlt
  · simp [discriminate, hlt, not_lt.mpr hlt.le]
  · simp [discriminate, hlt, not_lt.mpr hlt.le]

lemma filterFinite_replaceNonFinite (l : List FloatV) :
    filterFinite (replaceNonFinite l) = replaceNonFinite l := by
  apply List.filter_eq_self.mpr
  intro v hv
  rcases List.mem_map.mp hv with ⟨w, _, rfl⟩
  cases w <;> simp [FloatV.isFinite]

/-! ### Theorems for the claims -/

/-- C2 counterexample: with equal ground-truth values no canonicalizing
swap happens, and exchanging the collections flips the ROC orientation,
so the AUC changes (1 versus 0). -/
theorem discriminate_swap_fails_at_equal_values :
    discriminate [.fin 0] [.fin 1] 0 0 ≠ discriminate [.fin 1] [.fin 0] 0 0 := by
  norm_num [discriminate, sanitize, replaceNonFinite, filterFinite, toRatList, rocAuc,
    FloatV.isFinite]

/-- C2 (amended): for distinct ground-truth values `a ≠ b`, the internal
canonicalization makes `discriminate` invariant to simultaneously
exchanging `(d1, a)` with `(d2, b)`. -/
theorem discriminate_swap_invariant (d1 d2 : List FloatV) (a b : ℚ) (h : a ≠ b) :
    discriminate d1 d2 a b = discriminate d2 d1 b a :=
  discriminate_swap d1 d2 a b h

/-- C2 witness: the invariance at a concrete pair of collections with
distinct true values. -/
theorem discriminate_swap_invariant_witness :
    (0 : ℚ) ≠ 1 ∧
      discriminate [.fin 1] [.fin 5] 0 1 = discriminate [.fin 5] [.fin 1] 1 0 :=
  ⟨by norm_num, discriminate_swap_invariant [.fin 1] [.fin 5] 0 1 (by norm_num)⟩

/-- C3: the second sanitization stage removes nothing (zero is finite,
so after the replacement stage every entry is finite), sanitized
collections keep their original lengths, and
`discriminate([NaN], [5], 0, 1) = discriminate([0], [5], 0, 1)`. -/
theorem sanitize_second_stage_noop :
    (∀ l : List FloatV, filterFinite (replaceNonFinite l) = replaceNonFinite l ∧
      (sanitize l).length = l.length) ∧
    discriminate [.nan] [.fin 5] 0 1 = discriminate [.fin 0] [.fin 5] 0 1 := by
  constructor
  · intro l
    refine ⟨filterFinite_replaceNonFinite l, ?_⟩
    unfold sanitize
    rw [filterFinite_replaceNonFinite]
    simp [toRatList, replaceNonFinite]
  · norm_num [discriminate, sanitize, replaceNonFinite, filterFinite, toRatList, rocAuc,
      FloatV.isFinite]

/-- C4: whenever the (spec-modelled) ROC/AUC computation on the
sanitized, canonically ordered collections fails, `discriminate`
returns the numeric value 0 instead of propagating an error. -/
theorem discriminate_zero_on_auc_failure (d1 d2 : List FloatV) (a b : ℚ)
    (h : rocAuc (sanitize (if a > b then d2 else d1))
      (sanitize (if a > b then d1 else d2)) = none) :
    discriminate d1 d2 a b = 0 := by
  simp [discriminate, h]

/-- C4 witness: an empty first collection makes one class entirely
absent, the AUC computation fails, and `discriminate` returns 0. -/
theorem discriminate_zero_on_auc_failure_witness :
    rocAuc (sanitize (if (0 : ℚ) > 1 then [.fin 5] else []))
      (sanitize (if (0 : ℚ) > 1 then [] else [.fin 5])) = none ∧
    discriminate [] [.fin 5] 0 1 = 0 :=
  ⟨by norm_num [rocAuc, sanitize, replaceNonFinite, filterFinite, toRatList],
    discriminate_zero_on_auc_failure [] [.fin 5] 0 1
      (by norm_num [rocAuc, sanitize, replaceNonFinite, filterFinite, toRatList])⟩

/-- C6 counterexample: when the step does not divide the span,
`create_param_range` overshoots — `create_param_range(0, 1, 0.6)` is
`[0, 0.6, 1.2]`, which contains an element exceeding the upper bound 1
and does not contain 1 itself. -/
theorem create_param_range_not_inclusive :
    create_param_range 0 1 (3/5) = [0, 3/5, 6/5] ∧
    ¬ ((6 : ℚ)/5 ≤ 1) ∧ (1 : ℚ) ∉ create_param_range 0 1 (3/5) := by
  have hc : ⌈((1 + 3/5 - 0) / (3/5) : ℚ)⌉₊ = 3 := by
    rw [show ((1 + 3/5 - 0) / (3/5) : ℚ) = 8/3 by norm_num,
      Nat.ceil_eq_iff (by norm_num)]
    norm_num
  have hr : create_param_range 0 1 (3/5) = [0, 3/5, 6/5] := by
    unfold create_param_range arange
    rw [hc]
    simp [List.range_succ]
    norm_num
  refine ⟨hr, by norm_num, ?_⟩
  rw [hr]
  norm_num

/-- C6 (amended): when the positive step `res` divides the span
(`x1 - x0 = m * res`), `create_param_range` is the inclusive arithmetic
sequence from `x0` to `x1`: every element is at most `x1` and `x1`
itself is included. -/
theorem create_param_range_inclusive_of_divides (x0 x1 res : ℚ) (m : ℕ)
    (hres : 0 < res) (hm : x1 - x0 = m * res) :
    create_param_range x0 x1 res =
      (List.range (m + 1)).map (fun k : ℕ => x0 + (k : ℚ) * res) ∧
    (∀ y ∈ create_param_range x0 x1 res, y ≤ x1) ∧
    x1 ∈ create_param_range x0 x1 res := by
  have hcount : ⌈(x1 + res - x0) / res⌉₊ = m + 1 := by
    have heq : (x1 + res - x0) / res = (m + 1 : ℚ) := by
      rw [show x1 + res - x0 = (x1 - x0) + res by ring, hm]
      field_simp
      ring
    rw [heq]
    exact_mod_cast Nat.ceil_natCast (α := ℚ) (m + 1)
  have hrange : create_param_range x0 x1 res =
      (List.range (m + 1)).map (fun k : ℕ => x0 + (k : ℚ) * res) := by
    unfold create_param_range arange
    rw [hcount]
  refine ⟨hrange, ?_, ?_⟩
  · intro y hy
    rw [hrange] at hy
    rcases List.mem_map.mp hy with ⟨k, hk, rfl⟩
    have hk' : (k : ℚ) ≤ m := by exact_mod_cast Nat.lt_succ_iff.mp (List.mem_range.mp hk)
    have : (k : ℚ) * res ≤ m * res := mul_le_mul_of_nonneg_right hk' hres.le
    linarith [hm]
  · rw [hrange]
    refine List.mem_map.mpr ⟨m, List.mem_range.mpr (Nat.lt_succ_self m), ?_⟩
    linarith [hm]

/-- C6 witness: `create_param_range(0, 1, 0.5)` is the inclusive
sequence `[0, 0.5, 1]`. -/
theorem create_param_range_inclusive_witness :
    create_param_range 0 1 (1/2) = [0, 1/2, 1] :=
  ((create_param_range_inclusive_of_divides 0 1 (1/2) 2 (by norm_num)
    (by norm_num)).1).trans (by simp [List.range_succ])

/-- C8: `load` after `save` with the same simulation name and type
returns exactly the pair that was saved. -/
theorem save_load_roundtrip {σ ι : Type} (fs : String → Option (σ × ι))
    (sim_name sim_type : String) (spike_times : σ) (infered_values : ι) :
    load (save fs sim_name sim_type spike_times infered_values) sim_name sim_type =
      some (spike_times, infered_values) := by
  simp [load, save]

/-- C9 counterexample: in the frequency-sweep driver the nuisance
amplitude is a size-`N` draw, not one shared value — with a stream
whose first two raw values are 0 and 1/2 and two simulated units, the
first iteration assigns amplitudes 50 and 75, which is not
`replicate N c` for any single value `c`. -/
theorem freq_sweep_nuisance_not_shared :
    (freqSweepNuisanceAmplitudes 100 600 250 50 100 2
        (fun k => if k = 0 then 0 else 1/2)).getD 0 [] = [50, 75] ∧
    ∀ c : ℚ, [50, 75] ≠ List.replicate 2 (c : ℚ) := by
  constructor
  · have hc : ⌈((600 + 250 - 100 : ℚ)) / 250⌉₊ = 3 := by
      rw [show ((600 + 250 - 100 : ℚ)) / 250 = 3 by norm_num]
      exact_mod_cast Nat.ceil_natCast (α := ℚ) 3
    simp [freqSweepNuisanceAmplitudes, create_param_range, arange, hc,
      npRandomUniform, List.range_succ]
    norm_num
  · intro c h
    have h1 : (50 : ℚ) = c := by simpa using congrArg (fun l => l.getD 0 0) h
    have h2 : (75 : ℚ) = c := by simpa using congrArg (fun l => l.getD 1 0) h
    rw [← h1] at h2
    norm_num at h2

/-- C9 (amended): both sweep drivers draw their nuisance parameter
independently per simulated unit: each loop iteration reads `N` fresh
stream positions, and distinct units of one iteration receive distinct
values whenever the raw stream is injective and the nuisance range is
nondegenerate. -/
theorem sweep_nuisance_drawn_per_unit (lo hi : ℚ) (N : ℕ) (stream : ℕ → ℚ)
    (hinj : Function.Injective stream) (hne : lo ≠ hi) :
    (∀ f0 f1 res i, i < (create_param_range f0 f1 res).length →
        (freqSweepNuisanceAmplitudes f0 f1 res lo hi N stream).getD i [] =
          npRandomUniform lo hi N stream (i * N)) ∧
    (∀ a0 a1 res i, i < (create_param_range a0 a1 res).length →
        (ampSweepNuisanceFrequencies a0 a1 res lo hi N stream).getD i [] =
          npRandomUniform lo hi N stream (i * N)) ∧
    ∀ pos k1 k2, k1 < N → k2 < N → k1 ≠ k2 →
      (npRandomUniform lo hi N stream pos).getD k1 0 ≠
        (npRandomUniform lo hi N stream pos).getD k2 0 := by
  refine ⟨?_, ?_, ?_⟩
  · intro f0 f1 res i hi'
    exact getD_range_map _ _ _ _ hi'
  · intro a0 a1 res i hi'
    exact getD_range_map _ _ _ _ hi'
  · intro pos k1 k2 hk1 hk2 hkk
    rw [npRandomUniform, getD_range_map _ _ _ _ hk1, getD_range_map _ _ _ _ hk2]
    intro h
    have hs : stream (pos + k1) = stream (pos + k2) := by
      have hd : hi - lo ≠ 0 := sub_ne_zero.mpr (Ne.symm hne)
      have := add_left_cancel h
      exact mul_right_cancel₀ hd this
    exact hkk (Nat.add_left_cancel (hinj hs))

/-- C9 witness: with the injective raw stream `k ↦ k` and two units,
the two units of one frequency-sweep iteration receive different
nuisance amplitudes. -/
theorem sweep_nuisance_drawn_per_unit_witness :
    (npRandomUniform 50 100 2 (fun k => (k : ℚ)) 0).getD 0 0 ≠
      (npRandomUniform 50 100 2 (fun k => (k : ℚ)) 0).getD 1 0 :=
  (sweep_nuisance_drawn_per_unit 50 100 2 (fun k => (k : ℚ))
    (fun a b h => by simpa using h) (by norm_num)).2.2 0 0 1
    (by norm_num) (by norm_num) (by norm_num)

lemma flatten_getD {α : Type} (rows : List (List α)) (n : ℕ) (d : α)
    (hrow : ∀ r ∈ rows, r.length = n) :
    ∀ i j, i < rows.length → j < n →
      rows.flatten.getD (i * n + j) d = (rows.getD i []).getD j d := by
  induction rows with
  | nil => intro i j hi _; simp at hi
  | cons r rs ih =>
    intro i j hi hj
    have hr : r.length = n := hrow r (List.mem_cons_self r rs)
    cases i with
    | zero =>
      rw [List.flatten_cons, Nat.zero_mul, Nat.zero_add,
        List.getD_append _ _ _ _ (by omega), List.getD_cons_zero]
    | succ i' =>
      have hsm : (i' + 1) * n + j = n + (i' * n + j) := by
        rw [Nat.succ_mul]; omega
      rw [List.flatten_cons, hsm,
        List.getD_append_right _ _ _ _ (by omega), List.getD_cons_succ]
      have hlen : n + (i' * n + j) - r.length = i' * n + j := by omega
      rw [hlen]
      exact ih (fun t ht => hrow t (List.mem_cons_of_mem _ ht)) i' j (by simpa using hi) hj

lemma getD_map_getD {α β : Type} (l : List α) (f : α → β) (i : ℕ) (d : β) (d' : α)
    (h : i < l.length) : (l.map f).getD i d = f (l.getD i d') := by
  rw [List.getD_eq_getElem _ _ (by simpa using h), List.getD_eq_getElem _ _ h]
  simp

lemma flatten_map_length {α β : Type} (l : List α) (g : α → List β) (n : ℕ)
    (h : ∀ x ∈ l, (g x).length = n) : ((l.map g).flatten).length = l.length * n := by
  induction l with
  | nil => simp
  | cons a t ih =>
    simp only [List.map_cons, List.flatten_cons, List.length_append, List.length_cons]
    rw [h a (List.mem_cons_self a t), ih (fun x hx => h x (List.mem_cons_of_mem _ hx))]
    ring

/-- C7: the combination grid is a square `n × n` cross product of the
sweep levels including self-pairs.  Cell `(i, j)` of `zz` is the
`discriminate` score of the meshgrid pair — first argument and first
true value taken from `xx` (level `j`), second from `yy` (level `i`) —
and the grid is symmetric off the diagonal for distinct levels thanks
to the canonicalizing swap. -/
theorem discrimination_combinations_grid (iv : List (ℚ × List FloatV)) (i j : ℕ)
    (hi : i < (iv.map Prod.fst).length) (hj : j < (iv.map Prod.fst).length) :
    ((discrimination_combinations iv).2.2.length = (iv.map Prod.fst).length ∧
      ((discrimination_combinations iv).2.2.getD i []).length = (iv.map Prod.fst).length) ∧
    (((discrimination_combinations iv).1.getD i []).getD j 0 =
        (iv.map Prod.fst).getD j 0 ∧
      ((discrimination_combinations iv).2.1.getD i []).getD j 0 =
        (iv.map Prod.fst).getD i 0) ∧
    ((discrimination_combinations iv).2.2.getD i []).getD j 0 =
      discriminate ((iv.lookup ((iv.map Prod.fst).getD j 0)).getD [])
        ((iv.lookup ((iv.map Prod.fst).getD i 0)).getD [])
        ((iv.map Prod.fst).getD j 0) ((iv.map Prod.fst).getD i 0) ∧
    ((iv.map Prod.fst).getD j 0 ≠ (iv.map Prod.fst).getD i 0 →
      ((discrimination_combinations iv).2.2.getD i []).getD j 0 =
        ((discrimination_combinations iv).2.2.getD j []).getD i 0) := by
  have hlx : (ravel (meshgrid (iv.map Prod.fst) (iv.map Prod.fst)).1).length =
      (iv.map Prod.fst).length * (iv.map Prod.fst).length := by
    show (((iv.map Prod.fst).map fun _ => iv.map Prod.fst).flatten).length = _
    exact flatten_map_length _ _ _ (fun x _ => rfl)
  have hly : (ravel (meshgrid (iv.map Prod.fst) (iv.map Prod.fst)).2).length =
      (iv.map Prod.fst).length * (iv.map Prod.fst).length := by
    show (((iv.map Prod.fst).map fun yi => (iv.map Prod.fst).map fun _ => yi).flatten).length = _
    exact flatten_map_length _ _ _ (fun x _ => by simp)
  have hlz : (((ravel (meshgrid (iv.map Prod.fst) (iv.map Prod.fst)).1).zip
      (ravel (meshgrid (iv.map Prod.fst) (iv.map Prod.fst)).2)).map fun p =>
        discriminate ((iv.lookup p.1).getD []) ((iv.lookup p.2).getD []) p.1 p.2).length =
      (iv.map Prod.fst).length * (iv.map Prod.fst).length := by
    rw [List.length_map, List.length_zip, hlx, hly, Nat.min_self]
  have hfx : ∀ k1 k2 : ℕ, k1 < (iv.map Prod.fst).length → k2 < (iv.map Prod.fst).length →
      (ravel (meshgrid (iv.map Prod.fst) (iv.map Prod.fst)).1).getD
        (k1 * (iv.map Prod.fst).length + k2) 0 = (iv.map Prod.fst).getD k2 0 := by
    intro k1 k2 h1 h2
    show (((iv.map Prod.fst).map fun _ => iv.map Prod.fst).flatten).getD _ 0 = _
    rw [flatten_getD _ _ 0 (fun r hr => by
      rcases List.mem_map.mp hr with ⟨_, _, rfl⟩; rfl) k1 k2 (by simpa using h1) h2]
    rw [getD_map_getD _ _ _ _ ((0 : ℚ)) (by simpa using h1)]
  have hfy : ∀ k1 k2 : ℕ, k1 < (iv.map Prod.fst).length → k2 < (iv.map Prod.fst).length →
      (ravel (meshgrid (iv.map Prod.fst) (iv.map Prod.fst)).2).getD
        (k1 * (iv.map Prod.fst).length + k2) 0 = (iv.map Prod.fst).getD k1 0 := by
    intro k1 k2 h1 h2
    show (((iv.map Prod.fst).map fun yi => (iv.map Prod.fst).map fun _ => yi).flatten).getD
      _ 0 = _
    rw [flatten_getD _ _ 0 (fun r hr => by
      rcases List.mem_map.mp hr with ⟨_, _, rfl⟩; simp) k1 k2 (by simpa using h1) h2]
    rw [getD_map_getD _ _ _ _ ((0 : ℚ)) (by simpa using h1)]
    rw [getD_map_getD _ _ _ _ ((0 : ℚ)) (by simpa using h2)]
  have cell : ∀ a b : ℕ, a < (iv.map Prod.fst).length → b < (iv.map Prod.fst).length →
      ((discrimination_combinations iv).2.2.getD a []).getD b 0 =
        discriminate ((iv.lookup ((iv.map Prod.fst).getD b 0)).getD [])
          ((iv.lookup ((iv.map Prod.fst).getD a 0)).getD [])
          ((iv.map Prod.fst).getD b 0) ((iv.map Prod.fst).getD a 0) := by
    intro a b ha hb
    have hidx : a * (iv.map Prod.fst).length + b <
        (iv.map Prod.fst).length * (iv.map Prod.fst).length := by
      calc a * (iv.map Prod.fst).length + b < a * (iv.map Prod.fst).length +
            (iv.map Prod.fst).length := by omega
      _ = (a + 1) * (iv.map Prod.fst).length := by rw [Nat.succ_mul]
      _ ≤ _ := Nat.mul_le_mul_right _ ha
    show (((List.range (iv.map Prod.fst).length).map fun r =>
      ((((ravel (meshgrid (iv.map Prod.fst) (iv.map Prod.fst)).1).zip
        (ravel (meshgrid (iv.map Prod.fst) (iv.map Prod.fst)).2)).map fun p =>
          discriminate ((iv.lookup p.1).getD []) ((iv.lookup p.2).getD []) p.1 p.2).drop
            (r * (iv.map Prod.fst).length)).take (iv.map Prod.fst).length).getD a
              []).getD b 0 = _
    rw [getD_range_map _ _ _ _ ha]
    have hzip : (((ravel (meshgrid (iv.map Prod.fst) (iv.map Prod.fst)).1).zip
        (ravel (meshgrid (iv.map Prod.fst) (iv.map Prod.fst)).2))).length =
        (iv.map Prod.fst).length * (iv.map Prod.fst).length := by
      rw [List.length_zip, hlx, hly, Nat.min_self]
    have hb2 : a * (iv.map Prod.fst).length + b <
        (((ravel (meshgrid (iv.map Prod.fst) (iv.map Prod.fst)).1).zip
          (ravel (meshgrid (iv.map Prod.fst) (iv.map Prod.fst)).2)).map fun p =>
            discriminate ((iv.lookup p.1).getD []) ((iv.lookup p.2).getD []) p.1 p.2).length := by
      rw [hlz]; exact hidx
    have htk : b < (((((ravel (meshgrid (iv.map Prod.fst) (iv.map Prod.fst)).1).zip
        (ravel (meshgrid (iv.map Prod.fst) (iv.map Prod.fst)).2)).map fun p =>
          discriminate ((iv.lookup p.1).getD []) ((iv.lookup p.2).getD []) p.1 p.2).drop
            (a * (iv.map Prod.fst).length)).take (iv.map Prod.fst).length).length := by
      rw [List.length_take, List.length_drop, hlz]
      have : a * (iv.map Prod.fst).length + b <
          (iv.map Prod.fst).length * (iv.map Prod.fst).length := hidx
      omega
    rw [List.getD_eq_getElem _ _ htk, List.getElem_take, List.getElem_drop,
      List.getElem_map, List.getElem_zip]
    rw [← List.getD_eq_getElem (ravel (meshgrid (iv.map Prod.fst) (iv.map Prod.fst)).1) 0,
      ← List.getD_eq_getElem (ravel (meshgrid (iv.map Prod.fst) (iv.map Prod.fst)).2) 0,
      hfx a b ha hb, hfy a b ha hb]
  refine ⟨⟨?_, ?_⟩, ⟨?_, ?_⟩, cell i j hi hj, fun hne => ?_⟩
  · show (reshape (((ravel (meshgrid (iv.map Prod.fst) (iv.map Prod.fst)).1).zip
      (ravel (meshgrid (iv.map Prod.fst) (iv.map Prod.fst)).2)).map fun p =>
        discriminate ((iv.lookup p.1).getD []) ((iv.lookup p.2).getD []) p.1 p.2)
        (iv.map Prod.fst).length (iv.map Prod.fst).length).length = _
    simp [reshape]
  · show ((reshape (((ravel (meshgrid (iv.map Prod.fst) (iv.map Prod.fst)).1).zip
      (ravel (meshgrid (iv.map Prod.fst) (iv.map Prod.fst)).2)).map fun p =>
        discriminate ((iv.lookup p.1).getD []) ((iv.lookup p.2).getD []) p.1 p.2)
        (iv.map Prod.fst).length (iv.map Prod.fst).length).getD i []).length = _
    unfold reshape
    rw [getD_range_map _ _ _ _ hi, List.length_take, List.length_drop, hlz]
    have hii : i * (iv.map Prod.fst).length + (iv.map Prod.fst).length ≤
        (iv.map Prod.fst).length * (iv.map Prod.fst).length := by
      rw [show i * (iv.map Prod.fst).length + (iv.map Prod.fst).length =
        (i + 1) * (iv.map Prod.fst).length from (Nat.succ_mul i _).symm]
      exact Nat.mul_le_mul_right _ hi
    omega
  · show (((iv.map Prod.fst).map fun _ => iv.map Prod.fst).getD i []).getD j 0 = _
    rw [getD_map_getD _ _ _ _ ((0 : ℚ)) hi]
  · show (((iv.map Prod.fst).map fun yi =>
      (iv.map Prod.fst).map fun _ => yi).getD i []).getD j 0 = _
    rw [getD_map_getD _ _ _ _ ((0 : ℚ)) hi, getD_map_getD _ _ _ _ ((0 : ℚ)) hj]
  · rw [cell i j hi hj, cell j i hj hi]
    exact discriminate_swap _ _ _ _ hne

/-- C7 witness: on the two-level measure `{1 : [1, 1], 2 : [5, 5]}` the
off-diagonal cells agree. -/
theorem discrimination_combinations_grid_witness :
    ((discrimination_combinations
        [(1, [.fin 1, .fin 1]), (2, [.fin 5, .fin 5])]).2.2.getD 0 []).getD 1 0 =
      ((discrimination_combinations
        [(1, [.fin 1, .fin 1]), (2, [.fin 5, .fin 5])]).2.2.getD 1 []).getD 0 0 :=
  (discrimination_combinations_grid [(1, [.fin 1, .fin 1]), (2, [.fin 5, .fin 5])] 0 1
    (by norm_num) (by norm_num)).2.2.2 (by norm_num)

lemma gaussian_pos (x mu sig : ℝ) (hsig : 0 < sig) : 0 < gaussian x mu sig := by
  unfold gaussian
  have h2 : 0 < Real.sqrt (2 * Real.pi) := Real.sqrt_pos.mpr (by positivity)
  exact mul_pos (div_pos one_pos (mul_pos h2 hsig)) (Real.exp_pos _)

lemma gaussian_lt_gaussian_iff (x y mu sig : ℝ) (hsig : 0 < sig) :
    gaussian x mu sig < gaussian y mu sig ↔ ((y - mu) / sig) ^ 2 < ((x - mu) / sig) ^ 2 := by
  unfold gaussian
  have hC : 0 < 1 / (Real.sqrt (2 * Real.pi) * sig) :=
    div_pos one_pos (mul_pos (Real.sqrt_pos.mpr (by positivity)) hsig)
  rw [mul_lt_mul_left hC, Real.exp_lt_exp]
  constructor <;> intro h <;> linarith

lemma sum_map_const_of_eq {α : Type} (l : List α) (f : α → ℝ) (c : ℝ)
    (h : ∀ x ∈ l, f x = c) : (l.map f).sum = l.length * c := by
  induction l with
  | nil => simp
  | cons a t ih =>
    simp only [List.map_cons, List.sum_cons, List.length_cons]
    rw [h a (List.mem_cons_self a t), ih (fun x hx => h x (List.mem_cons_of_mem _ hx))]
    push_cast
    ring

lemma sum_map_lt_sum_map {α : Type} (l : List α) (F G : α → ℝ) (hne : l ≠ [])
    (h : ∀ c ∈ l, F c < G c) : (l.map F).sum < (l.map G).sum := by
  induction l with
  | nil => exact absurd rfl hne
  | cons a t ih =>
    simp only [List.map_cons, List.sum_cons]
    cases t with
    | nil => simpa using h a (List.mem_cons_self a [])
    | cons b u =>
      exact add_lt_add (h a (List.mem_cons_self a _))
        (ih (List.cons_ne_nil b u) (fun c hc => h c (List.mem_cons_of_mem _ hc)))

lemma argmax_foldl_ne_zero (rest : List (ℕ × ℝ)) (acc : ℕ × ℝ) (h : acc.1 ≠ 0) :
    (rest.foldl (fun acc p => if acc.2 < p.2 then (p.1 + 1, p.2) else acc) acc).1 ≠ 0 := by
  induction rest generalizing acc with
  | nil => exact h
  | cons p ps ih =>
    rw [List.foldl_cons]
    apply ih
    by_cases hc : acc.2 < p.2
    · rw [if_pos hc]; exact Nat.succ_ne_zero _
    · rw [if_neg hc]; exact h

lemma argmax_foldl_lt (rest : List (ℕ × ℝ)) (acc : ℕ × ℝ) (n : ℕ) (h : acc.1 < n)
    (hrest : ∀ p ∈ rest, p.1 + 1 < n) :
    (rest.foldl (fun acc p => if acc.2 < p.2 then (p.1 + 1, p.2) else acc) acc).1 < n := by
  induction rest generalizing acc with
  | nil => exact h
  | cons p ps ih =>
    rw [List.foldl_cons]
    apply ih
    · by_cases hc : acc.2 < p.2
      · rw [if_pos hc]; exact hrest p (List.mem_cons_self _ _)
      · rw [if_neg hc]; exact h
    · exact fun q hq => hrest q (List.mem_cons_of_mem _ hq)

lemma argmaxIdx_lt_length (l : List ℝ) (hne : l ≠ []) : argmaxIdx l < l.length := by
  cases l with
  | nil => exact absurd rfl hne
  | cons x xs =>
    unfold argmaxIdx
    apply argmax_foldl_lt _ _ _ (by simp)
    intro p hp
    have h1 : p.1 ∈ xs.enum.map Prod.fst := List.mem_map_of_mem _ hp
    rw [List.enum_map_fst] at h1
    have := List.mem_range.mp h1
    simp only [List.length_cons]
    omega

lemma argmaxIdx_ne_zero (l : List ℝ) (hl : 1 < l.length) (h : l.getD 0 0 < l.getD 1 0) :
    argmaxIdx l ≠ 0 := by
  match l, hl with
  | x :: y :: t, _ =>
    simp only [List.getD_cons_zero, List.getD_cons_succ] at h
    show (((y :: t).enum.foldl
      (fun acc p => if acc.2 < p.2 then (p.1 + 1, p.2) else acc) (0, x)).1 : ℕ) ≠ 0
    have he : (y :: t).enum = (0, y) :: t.enumFrom 1 := rfl
    rw [he, List.foldl_cons, if_pos (by simpa using h)]
    exact argmax_foldl_ne_zero _ _ (Nat.succ_ne_zero 0)

lemma mem_localMaxIndices {l : List ℝ} {i : ℕ} :
    i ∈ localMaxIndices l ↔ i < l.length ∧ isLocalMax l i := by
  unfold localMaxIndices
  rw [List.mem_filter, List.mem_range]
  simp

lemma find_peaks_mem {l : List ℝ} {prom : ℝ} {i : ℕ} (h : i ∈ find_peaks l prom) :
    i < l.length ∧ isLocalMax l i := by
  unfold find_peaks at h
  exact mem_localMaxIndices.mp (List.mem_of_mem_filter h)

lemma find_peaks_pairwise (l : List ℝ) (prom : ℝ) :
    (find_peaks l prom).Pairwise (· < ·) := by
  unfold find_peaks localMaxIndices
  exact ((List.pairwise_lt_range _).filter _).filter _

lemma localMax_gap {l : List ℝ} {p q : ℕ} (hp : isLocalMax l p) (hq : isLocalMax l q)
    (hpq : p < q) : p + 2 ≤ q := by
  by_contra hcon
  have hq1 : q = p + 1 := by omega
  subst hq1
  have h1 : l.getD (p + 1) 0 < l.getD p 0 := hp.2.2.2
  have h2 : l.getD (p + 1 - 1) 0 < l.getD (p + 1) 0 := hq.2.2.1
  simp only [Nat.add_sub_cancel] at h2
  linarith

lemma localMaxIndices_length_le_one (n : ℕ) (f : ℕ → ℝ)
    (H : ∀ s t : ℕ, s ≤ t → f (s + 1) < f s → ¬ f t < f (t + 1)) :
    (localMaxIndices ((List.range n).map f)).length ≤ 1 := by
  by_contra hlen
  push_neg at hlen
  obtain ⟨a, b, tl, hL⟩ : ∃ a b tl,
      localMaxIndices ((List.range n).map f) = a :: b :: tl := by
    rcases hI : localMaxIndices ((List.range n).map f) with _ | ⟨a, _ | ⟨b, tl⟩⟩
    · rw [hI] at hlen; simp at hlen
    · rw [hI] at hlen; simp at hlen
    · exact ⟨a, b, tl, rfl⟩
  have hpw : (localMaxIndices ((List.range n).map f)).Pairwise (· < ·) := by
    unfold localMaxIndices
    exact (List.pairwise_lt_range _).filter _
  rw [hL] at hpw
  have hab : a < b := (List.pairwise_cons.mp hpw).1 b (List.mem_cons_self _ _)
  have ha : a ∈ localMaxIndices ((List.range n).map f) := by rw [hL]; simp
  have hb : b ∈ localMaxIndices ((List.range n).map f) := by rw [hL]; simp
  obtain ⟨han, hA⟩ := mem_localMaxIndices.mp ha
  obtain ⟨hbn, hB⟩ := mem_localMaxIndices.mp hb
  obtain ⟨hapos, halt, hainc, hadec⟩ := hA
  obtain ⟨hbpos, hblt, hbinc, hbdec⟩ := hB
  rw [List.length_map, List.length_range] at halt hblt
  rw [getD_range_map _ _ _ _ (by omega : a + 1 < n),
    getD_range_map _ _ _ _ (by omega : a < n)] at hadec
  rw [getD_range_map _ _ _ _ (by omega : b - 1 < n),
    getD_range_map _ _ _ _ (by omega : b < n)] at hbinc
  have hble : a ≤ b - 1 := by omega
  apply H a (b - 1) hble hadec
  have hb1 : b - 1 + 1 = b := by omega
  rw [hb1]
  exact hbinc

lemma quad_step (T a b : ℝ) (hab : a ≤ b)
    (h : ((0 + a * 0.1 - T) / 0.6) ^ 2 < ((0 + (a + 1) * 0.1 - T) / 0.6) ^ 2) :
    ((0 + b * 0.1 - T) / 0.6) ^ 2 ≤ ((0 + (b + 1) * 0.1 - T) / 0.6) ^ 2 := by
  rw [div_pow, div_pow, div_lt_div_iff_of_pos_right (by norm_num : (0:ℝ) < 0.6 ^ 2)] at h
  rw [div_pow, div_pow, div_le_div_iff_of_pos_right (by norm_num : (0:ℝ) < 0.6 ^ 2)]
  ring_nf at h ⊢
  linarith

lemma isi_bins_default :
    isi_bins 0.1 = (List.range 3500).map (fun k : ℕ => 0 + (k : ℝ) * 0.1) := by
  have h : ⌈((350 : ℝ) - 0) / 0.1⌉₊ = 3500 := by
    rw [show ((350 : ℝ) - 0) / 0.1 = 3500 by norm_num,
      show ((3500 : ℝ)) = ((3500 : ℕ) : ℝ) by norm_num]
    exact Nat.ceil_natCast 3500
  unfold isi_bins arange
  rw [h]

lemma freq_bins_default :
    freq_bins 0.01 = (List.range 1500).map (fun k : ℕ => 0 + (k : ℝ) * 0.01) := by
  have h : ⌈((15 : ℝ) - 0) / 0.01⌉₊ = 1500 := by
    rw [show ((15 : ℝ) - 0) / 0.01 = 1500 by norm_num,
      show ((1500 : ℝ)) = ((1500 : ℕ) : ℝ) by norm_num]
    exact Nat.ceil_natCast 1500
  unfold freq_bins arange
  rw [h]

lemma diffs_nil_of_short {α : Type} [Sub α] (l : List α) (h : l.length ≤ 1) :
    diffs l = [] := by
  cases l with
  | nil => rfl
  | cons a t =>
    cases t with
    | nil => rfl
    | cons b u => exfalso; simp only [List.length_cons] at h; omega

/-- Any failing pipeline step — no ISIs at all, or an empty
peak-difference array — lands in the `except` branch. -/
lemma infer_frequency_nan_cases (s : List ℝ) (t1 t2 res prom ts : ℝ)
    (h : diffs s = [] ∨ isi_peak_diffs (diffs s) t1 res prom = []) :
    infer_frequency s t1 t2 res prom ts = .nan := by
  unfold infer_frequency
  split
  · rfl
  · next i0 irest heq =>
    split
    · rfl
    · next p0 prest hpk =>
      exfalso
      rcases h with h | h
      · rw [h] at heq; exact List.cons_ne_nil i0 irest heq.symm
      · rw [heq] at h; rw [h] at hpk; exact List.cons_ne_nil p0 prest hpk.symm

/-- For an ISI list whose entries are all equal to `T` the smoothed,
normalized ISI density with the default spreads is unimodal: it has at
most one interior local maximum, so at most one detected peak. -/
lemma peaks_of_periodic_le_one (isi : List ℝ) (T : ℝ) (hne : isi ≠ [])
    (hall : ∀ x ∈ isi, x = T) (prom : ℝ) :
    (find_peaks (isi_density isi 0.6 0.1) prom).length ≤ 1 := by
  have hbins := isi_bins_default
  set A : ℝ → ℝ := fun x => (isi.map fun i => gaussian x i 0.6).sum with hA
  set S : ℝ := ((isi_bins 0.1).map A).sum with hSdef
  have hdens : isi_density isi 0.6 0.1 =
      (List.range 3500).map (fun k : ℕ => A (0 + (k : ℝ) * 0.1) / S) := by
    show ((isi_bins 0.1).map A).map (fun v => v / S) = _
    simp only [hbins, List.map_map, Function.comp_def]
  have hAeq : ∀ x : ℝ, A x = (isi.length : ℝ) * gaussian x T 0.6 := by
    intro x
    rw [hA]
    exact sum_map_const_of_eq _ _ _ (fun i hi => by rw [hall i hi])
  have hlpos : (0 : ℝ) < isi.length := by
    exact_mod_cast List.length_pos.mpr hne
  have hApos : ∀ x : ℝ, 0 < A x := by
    intro x
    rw [hAeq]
    exact mul_pos hlpos (gaussian_pos _ _ _ (by norm_num))
  have hSpos : 0 < S := by
    rw [hSdef]
    apply List.sum_pos
    · intro y hy
      rcases List.mem_map.mp hy with ⟨x, _, rfl⟩
      exact hApos x
    · rw [hbins]
      simp
  have hmono : ∀ j k : ℕ,
      (A (0 + (j : ℝ) * 0.1) / S < A (0 + (k : ℝ) * 0.1) / S) ↔
      ((0 + (k : ℝ) * 0.1 - T) / 0.6) ^ 2 < ((0 + (j : ℝ) * 0.1 - T) / 0.6) ^ 2 := by
    intro j k
    rw [div_lt_div_iff_of_pos_right hSpos, hAeq, hAeq, mul_lt_mul_left hlpos]
    exact gaussian_lt_gaussian_iff _ _ _ _ (by norm_num)
  calc (find_peaks (isi_density isi 0.6 0.1) prom).length
      ≤ (localMaxIndices (isi_density isi 0.6 0.1)).length := List.length_filter_le _ _
    _ ≤ 1 := by
        rw [hdens]
        apply localMaxIndices_length_le_one
        intro s t hst hdec
        rw [hmono (s + 1) s] at hdec
        rw [hmono t (t + 1), not_lt]
        push_cast at hdec ⊢
        exact quad_step T s t (by exact_mod_cast hst) hdec

/-- `infer_frequency` with default tuning returns the NaN sentinel on
every perfectly periodic spike train: the ISI density has at most one
peak, so the peak-difference array is empty and `np.vstack` raises. -/
lemma infer_frequency_periodic_nan_aux (s : List ℝ) (T : ℝ) (hlen : 2 ≤ s.length)
    (hper : ∀ i : ℕ, i + 1 < s.length → s.getD (i + 1) 0 - s.getD i 0 = T) :
    infer_frequency s 0.6 0.3 0.1 0.5 0.01 = .nan := by
  have hdlen : (diffs s).length = s.length - 1 := by
    unfold diffs
    rw [List.length_zipWith, List.length_tail]
    omega
  have hne : diffs s ≠ [] := by
    rw [← List.length_pos, hdlen]
    omega
  have hall : ∀ x ∈ diffs s, x = T := by
    intro x hx
    rw [List.mem_iff_getElem] at hx
    obtain ⟨k, hk, hval⟩ := hx
    have hk2 : k + 1 < s.length := by rw [hdlen] at hk; omega
    have hk3 : k < s.length := by omega
    have hget : (diffs s)[k] = s[k + 1] - s[k] := by
      simp [diffs]
    have hh := hper k hk2
    rw [List.getD_eq_getElem _ _ hk2, List.getD_eq_getElem _ _ hk3] at hh
    rw [← hval, hget]
    exact hh
  apply infer_frequency_nan_cases
  right
  unfold isi_peak_diffs
  apply diffs_nil_of_short
  rw [List.length_map]
  exact peaks_of_periodic_le_one (diffs s) T hne hall 0.5

lemma isi_density_length (isi : List ℝ) (t1 res : ℝ) :
    (isi_density isi t1 res).length = (isi_bins res).length := by
  unfold isi_density
  simp

/-- With the default ISI bin width 0.1, consecutive detected peaks are
at least two bin indices apart, so every peak-location difference is at
least 0.2. -/
lemma isi_peak_diffs_ge_default (isi : List ℝ) (t1 prom : ℝ) :
    ∀ c ∈ isi_peak_diffs isi t1 0.1 prom, (0.2 : ℝ) ≤ c := by
  intro c hc
  unfold isi_peak_diffs at hc
  rw [List.mem_iff_getElem] at hc
  obtain ⟨k, hk, hval⟩ := hc
  have hdl : (isi_density isi t1 0.1).length = 3500 := by
    rw [isi_density_length, isi_bins_default]
    simp
  have hlen : (diffs ((find_peaks (isi_density isi t1 0.1) prom).map
      fun p => (isi_bins 0.1).getD p 0)).length =
      (find_peaks (isi_density isi t1 0.1) prom).length - 1 := by
    unfold diffs
    rw [List.length_zipWith, List.length_tail, List.length_map]
    omega
  have hk1 : k + 1 < (find_peaks (isi_density isi t1 0.1) prom).length := by
    rw [hlen] at hk
    omega
  have hk0 : k < (find_peaks (isi_density isi t1 0.1) prom).length := by omega
  have hkm1 : k + 1 < ((find_peaks (isi_density isi t1 0.1) prom).map
      fun p => (isi_bins 0.1).getD p 0).length := by simpa using hk1
  have hkm0 : k < ((find_peaks (isi_density isi t1 0.1) prom).map
      fun p => (isi_bins 0.1).getD p 0).length := by simpa using hk0
  have hget : (diffs ((find_peaks (isi_density isi t1 0.1) prom).map
      fun p => (isi_bins 0.1).getD p 0))[k] =
      ((find_peaks (isi_density isi t1 0.1) prom).map
        fun p => (isi_bins 0.1).getD p 0).getD (k + 1) 0 -
      ((find_peaks (isi_density isi t1 0.1) prom).map
        fun p => (isi_bins 0.1).getD p 0).getD k 0 := by
    rw [List.getD_eq_getElem _ _ hkm1, List.getD_eq_getElem _ _ hkm0]
    simp [diffs]
  rw [← hval, hget, getD_map_getD _ _ _ _ (0 : ℕ) hk1, getD_map_getD _ _ _ _ (0 : ℕ) hk0]
  have hmem1 : (find_peaks (isi_density isi t1 0.1) prom).getD (k + 1) 0 ∈
      find_peaks (isi_density isi t1 0.1) prom := by
    rw [List.getD_eq_getElem _ _ hk1]
    exact List.getElem_mem _
  have hmem0 : (find_peaks (isi_density isi t1 0.1) prom).getD k 0 ∈
      find_peaks (isi_density isi t1 0.1) prom := by
    rw [List.getD_eq_getElem _ _ hk0]
    exact List.getElem_mem _
  obtain ⟨hb1, hlm1⟩ := find_peaks_mem hmem1
  obtain ⟨hb0, hlm0⟩ := find_peaks_mem hmem0
  have hord : (find_peaks (isi_density isi t1 0.1) prom).getD k 0 <
      (find_peaks (isi_density isi t1 0.1) prom).getD (k + 1) 0 := by
    rw [List.getD_eq_getElem _ _ hk0, List.getD_eq_getElem _ _ hk1]
    exact List.pairwise_iff_getElem.mp (find_peaks_pairwise _ _) k (k + 1) hk0 hk1 (by omega)
  have hgap : (find_peaks (isi_density isi t1 0.1) prom).getD k 0 + 2 ≤
      (find_peaks (isi_density isi t1 0.1) prom).getD (k + 1) 0 :=
    localMax_gap hlm0 hlm1 hord
  rw [hdl] at hb0 hb1
  rw [isi_bins_default, getD_range_map _ _ _ _ hb1, getD_range_map _ _ _ _ hb0]
  have hcast : ((find_peaks (isi_density isi t1 0.1) prom).getD k 0 : ℝ) + 2 ≤
      ((find_peaks (isi_density isi t1 0.1) prom).getD (k + 1) 0 : ℝ) := by
    exact_mod_cast hgap
  nlinarith [hcast]

/-- With the default tuning, `infer_frequency` either fails to the NaN
sentinel or returns a positive finite frequency: the frequency-grid
argmax can never land on bin 0, because every peak spacing is at least
0.2 while the candidate-periodicity density is strictly increasing on
the first two bins. -/
lemma infer_frequency_default_outcome (s : List ℝ) :
    infer_frequency s 0.6 0.3 0.1 0.5 0.01 = .nan ∨
      ∃ q : ℝ, 0 < q ∧ infer_frequency s 0.6 0.3 0.1 0.5 0.01 = .val q := by
  unfold infer_frequency
  split
  · exact Or.inl rfl
  · next i0 irest heq =>
    split
    · exact Or.inl rfl
    · next p0 prest hpk =>
      split
      · exact Or.inl rfl
      · next b0 brest hfb =>
        right
        have hcent : ∀ c ∈ (p0 :: prest), (0.2 : ℝ) ≤ c := by
          rw [← hpk]
          exact isi_peak_diffs_ge_default (i0 :: irest) 0.6 0.5
        have hhist : freq_density (p0 :: prest) 0.3 0.01 = (List.range 1500).map
            (fun k : ℕ =>
              ((p0 :: prest).map fun pk => gaussian (0 + (k : ℝ) * 0.01) pk 0.3).sum) := by
          unfold freq_density
          simp only [freq_bins_default, List.map_map, Function.comp_def]
        have hhlen : (freq_density (p0 :: prest) 0.3 0.01).length = 1500 := by
          rw [hhist]
          simp
        have h01 : (freq_density (p0 :: prest) 0.3 0.01).getD 0 0 <
            (freq_density (p0 :: prest) 0.3 0.01).getD 1 0 := by
          rw [hhist, getD_range_map _ _ _ _ (by norm_num), getD_range_map _ _ _ _ (by norm_num)]
          apply sum_map_lt_sum_map _ _ _ (List.cons_ne_nil _ _)
          intro c hcm
          have hc2 := hcent c hcm
          rw [gaussian_lt_gaussian_iff _ _ _ _ (by norm_num : (0 : ℝ) < 0.3)]
          push_cast
          rw [div_pow, div_pow, div_lt_div_iff_of_pos_right (by norm_num : (0 : ℝ) < 0.3 ^ 2)]
          nlinarith
        have hne0 : argmaxIdx (freq_density (p0 :: prest) 0.3 0.01) ≠ 0 :=
          argmaxIdx_ne_zero _ (by rw [hhlen]; norm_num) h01
        have hlt : argmaxIdx (freq_density (p0 :: prest) 0.3 0.01) < 1500 := by
          rw [← hhlen]
          exact argmaxIdx_lt_length _ (List.length_pos.mp (by rw [hhlen]; norm_num))
        have hx : (b0 :: brest).getD (argmaxIdx (freq_density (p0 :: prest) 0.3 0.01)) 0 =
            0 + (argmaxIdx (freq_density (p0 :: prest) 0.3 0.01) : ℝ) * 0.01 := by
          rw [← hfb, freq_bins_default]
          exact getD_range_map _ _ _ _ hlt
        have hxpos : (0 : ℝ) <
            (b0 :: brest).getD (argmaxIdx (freq_density (p0 :: prest) 0.3 0.01)) 0 := by
          rw [hx]
          have h1 : (1 : ℝ) ≤ (argmaxIdx (freq_density (p0 :: prest) 0.3 0.01) : ℝ) := by
            exact_mod_cast Nat.one_le_iff_ne_zero.mpr hne0
          nlinarith
        refine ⟨1000 / (b0 :: brest).getD (argmaxIdx (freq_density (p0 :: prest) 0.3 0.01)) 0,
          div_pos (by norm_num) hxpos, ?_⟩
        show (if (b0 :: brest).getD (argmaxIdx (freq_density (p0 :: prest) 0.3 0.01)) 0 = 0
            then FreqResult.posInf
            else FreqResult.val
              (1000 / (b0 :: brest).getD (argmaxIdx (freq_density (p0 :: prest) 0.3 0.01)) 0)) =
          FreqResult.val
            (1000 / (b0 :: brest).getD (argmaxIdx (freq_density (p0 :: prest) 0.3 0.01)) 0)
        rw [if_neg hxpos.ne']

/-- C1 counterexample: on the perfectly periodic spike train
`[0, 10, 20]` (ISI exactly 10 ms) `infer_frequency` with its default
tuning returns the NaN sentinel — not a frequency near `1000/10 = 100`
Hz, and not any frequency value at all. -/
theorem infer_frequency_periodic_example :
    infer_frequency [0, 10, 20] 0.6 0.3 0.1 0.5 0.01 = .nan ∧
      ∀ q : ℝ, FreqResult.nan ≠ FreqResult.val q := by
  constructor
  · apply infer_frequency_periodic_nan_aux _ 10 (by norm_num)
    intro i hi
    have h2 : i < 2 := by
      simp only [List.length_cons, List.length_nil] at hi
      omega
    interval_cases i <;> norm_num
  · intro q h
    exact FreqResult.noConfusion h

/-- C1 (amended): on every perfectly periodic spike train (at least two
spikes, consecutive spike times differing by exactly `T`),
`infer_frequency` with its default tuning parameters returns the NaN
sentinel: all ISIs coincide, the smoothed ISI density is unimodal with
at most one peak, the peak-difference array is therefore empty, and the
`except` branch fires. -/
theorem infer_frequency_periodic_returns_nan (s : List ℝ) (T : ℝ) (hlen : 2 ≤ s.length)
    (hper : ∀ i : ℕ, i + 1 < s.length → s.getD (i + 1) 0 - s.getD i 0 = T) :
    infer_frequency s 0.6 0.3 0.1 0.5 0.01 = .nan :=
  infer_frequency_periodic_nan_aux s T hlen hper

/-- C1 witness: the amended claim evaluated on the periodic train
`[0, 10, 20]` with period 10. -/
theorem infer_frequency_periodic_returns_nan_witness :
    2 ≤ ([0, 10, 20] : List ℝ).length ∧
      infer_frequency [0, 10, 20] 0.6 0.3 0.1 0.5 0.01 = .nan :=
  ⟨by norm_num, infer_frequency_periodic_returns_nan [0, 10, 20] 10 (by norm_num)
    (by
      intro i hi
      have h2 : i < 2 := by
        simp only [List.length_cons, List.length_nil] at hi
        omega
      interval_cases i <;> norm_num)⟩

/-- C5: on every spike train for which a pipeline step fails — no ISIs
can be formed, no peaks are detected above the prominence threshold, or
the peak-difference array is empty — `infer_frequency` returns the NaN
sentinel instead of raising (the embedding is a total function, so no
exception can escape). -/
theorem infer_frequency_failure_nan (s : List ℝ) (t1 t2 res prom ts : ℝ)
    (h : diffs s = [] ∨ find_peaks (isi_density (diffs s) t1 res) prom = [] ∨
      isi_peak_diffs (diffs s) t1 res prom = []) :
    infer_frequency s t1 t2 res prom ts = .nan := by
  apply infer_frequency_nan_cases
  rcases h with h | h | h
  · exact Or.inl h
  · right
    unfold isi_peak_diffs
    rw [h]
    rfl
  · exact Or.inr h

/-- C5 witness: the empty spike train has no ISIs, and
`infer_frequency` with the default tuning returns the sentinel. -/
theorem infer_frequency_failure_nan_witness :
    diffs ([] : List ℝ) = [] ∧
      infer_frequency ([] : List ℝ) 0.6 0.3 0.1 0.5 0.01 = .nan :=
  ⟨rfl, infer_frequency_failure_nan [] 0.6 0.3 0.1 0.5 0.01 (Or.inl rfl)⟩

/-- C10 counterexample: there is no spike-train input on which
`infer_frequency` with its default tuning returns positive infinity —
the frequency-grid argmax never falls on bin 0. -/
theorem no_posInf_escape :
    ¬ ∃ s : List ℝ, infer_frequency s 0.6 0.3 0.1 0.5 0.01 = .posInf := by
  rintro ⟨s, hs⟩
  rcases infer_frequency_default_outcome s with h | ⟨q, _, h⟩ <;>
    rw [h] at hs <;> exact FreqResult.noConfusion hs

/-- C10 (amended): with the default tuning parameters every outcome of
`infer_frequency` is either the NaN sentinel or a positive finite
frequency, never `+inf`: peak spacings are at least `2 * res = 0.2`, so
the second smoothed density is strictly increasing across the first two
frequency bins, the argmax is at least bin 1, and the final division is
by a positive bin position. -/
theorem infer_frequency_default_never_posInf (s : List ℝ) :
    infer_frequency s 0.6 0.3 0.1 0.5 0.01 = .nan ∨
      ∃ q : ℝ, 0 < q ∧ infer_frequency s 0.6 0.3 0.1 0.5 0.01 = .val q :=
  infer_frequency_default_outcome s

end Fig6
